import Mathlib

/-!
Shallow embedding of `src/app.py` (Sentinel-2 Cloudless API → world color
converter).  Python floats are modelled as exact rationals (ℚ); 8-bit image
pixels as `Fin 256`; fallible operations as `Except`/`Option`.  External
collaborators (HTTP transport, PIL image decoding/resizing, the OS clock and
file system) are parameters of the definitions that use them.
-/

/-! ## Tile partitioner (`get_world_tiles`, app.py lines 80-120) -/

/-- Rectangle in the fixed projected coordinate system (EPSG:3857):
the `bounds` dictionaries of app.py. -/
structure TileB where
  west : ℚ
  east : ℚ
  south : ℚ
  north : ℚ
deriving DecidableEq

/-- A tile as produced by `get_world_tiles`: sequential id plus bounds. -/
structure Tile where
  id : ℕ
  bounds : TileB
deriving DecidableEq

/-- World bounds in Web Mercator, app.py lines 85-90 (floats 20037508.34
modelled exactly). -/
def worldBounds : TileB :=
  ⟨-2003750834/100, 2003750834/100, -2003750834/100, 2003750834/100⟩

/-- Polar-exclusion threshold of app.py line 103. -/
def polarThreshold : ℚ := 15000000

/-- Number of iterations of a `while x < stop: ... x += span` loop started at
`start`, for positive `span`. -/
def tileSteps (start stop span : ℚ) : ℕ :=
  (Int.ceil ((stop - start) / span)).toNat

/-- The cursor values visited by `while x < stop: ... x += span` starting at
`start` (closed form of the loop, see `whileLtLoop_eq_sweepPositions`). -/
def sweepPositions (start stop span : ℚ) : List ℚ :=
  (List.range (tileSteps start stop span)).map (fun k : ℕ => start + (k : ℚ) * span)

/-- Fuel-indexed transcription of the `while x < stop` loop itself; with
enough fuel it agrees with `sweepPositions` (`whileLtLoop_eq_sweepPositions`),
which certifies the closed form used everywhere below. -/
def whileLtLoop (stop span : ℚ) : ℕ → ℚ → List ℚ
  | 0, _ => []
  | fuel + 1, x => if x < stop then x :: whileLtLoop stop span fuel (x + span) else []

/-- The tile emitted at cursor position `(x, y)`: app.py lines 107-115
(`east`/`north` clamped to the world bounds). -/
def mkTileB (wb : TileB) (tw th x y : ℚ) : TileB :=
  ⟨x, min (x + tw) wb.east, y, min (y + th) wb.north⟩

/-- Bounds of all emitted tiles, in emission order: outer sweep over x, inner
sweep over y, with the polar skip of app.py lines 103-105. -/
def tileBoundsList (wb : TileB) (tw th : ℚ) : List TileB :=
  (sweepPositions wb.west wb.east tw).flatMap (fun x =>
    (sweepPositions wb.south wb.north th).filterMap (fun y =>
      if polarThreshold < |y| then none else some (mkTileB wb tw th x y)))

/-- Bounds of the tiles the sweep would emit with the polar skip removed
(lines 107-115 alone); used for the coverage property, which the spec states
"ignoring polar exclusion". -/
def tileBoundsAll (wb : TileB) (s : ℚ) : List TileB :=
  (sweepPositions wb.west wb.east s).flatMap (fun x =>
    (sweepPositions wb.south wb.north s).map (fun y => mkTileB wb s s x y))

/-- The `tile_id` counter of app.py lines 97/108/116: ids are handed out in
emission order starting from `n`. -/
def assignIds : ℕ → List TileB → List Tile
  | _, [] => []
  | n, b :: bs => ⟨n, b⟩ :: assignIds (n + 1) bs

/-- app.py `get_world_tiles(resolution)`: tile span is `resolution * 1000`,
tiles are swept over `worldBounds` and numbered from 0. -/
def get_world_tiles (resolution : ℚ) : List Tile :=
  assignIds 0 (tileBoundsList worldBounds (resolution * 1000) (resolution * 1000))

theorem tileSteps_eq_zero {start stop span : ℚ} (h : ¬ start < stop) :
    tileSteps start stop span = 0 ∨ span ≤ 0 := by
  rcases le_or_lt span 0 with hs | hs
  · exact Or.inr hs
  · left
    have hnum : stop - start ≤ 0 := by linarith [not_lt.mp h]
    have : (stop - start) / span ≤ 0 := div_nonpos_of_nonpos_of_nonneg hnum hs.le
    have : Int.ceil ((stop - start) / span) ≤ 0 := by
      exact_mod_cast Int.ceil_le.mpr (by simpa using this)
    simp [tileSteps, Int.toNat_of_nonpos this]

theorem sweepPositions_eq_nil {start stop span : ℚ} (hs : 0 < span)
    (h : ¬ start < stop) : sweepPositions start stop span = [] := by
  rcases @tileSteps_eq_zero start stop span h with h0 | h0
  · simp [sweepPositions, h0]
  · linarith

theorem tileSteps_pos {start stop span : ℚ} (hs : 0 < span) (h : start < stop) :
    0 < tileSteps start stop span := by
  have hq : (0 : ℚ) < (stop - start) / span := div_pos (by linarith) hs
  have hc : (0 : ℤ) < Int.ceil ((stop - start) / span) := Int.ceil_pos.mpr hq
  unfold tileSteps
  omega

theorem tileSteps_succ {start stop span : ℚ} (hs : 0 < span) (h : start < stop) :
    tileSteps (start + span) stop span = tileSteps start stop span - 1 := by
  unfold tileSteps
  have : (stop - (start + span)) / span = (stop - start) / span - 1 := by
    field_simp
    ring
  rw [this, Int.ceil_sub_one]
  have hpos : (0 : ℤ) < Int.ceil ((stop - start) / span) :=
    Int.ceil_pos.mpr (div_pos (by linarith) hs)
  omega

theorem sweepPositions_cons {start stop span : ℚ} (hs : 0 < span)
    (h : start < stop) :
    sweepPositions start stop span = start :: sweepPositions (start + span) stop span := by
  unfold sweepPositions
  have hn : tileSteps start stop span = (tileSteps start stop span - 1) + 1 := by
    have := tileSteps_pos hs h
    omega
  rw [hn, List.range_succ_eq_map, tileSteps_succ hs h, List.map_cons, List.map_map]
  refine congrArg₂ List.cons (by push_cast; ring) ?_
  refine List.map_congr_left (fun k _ => ?_)
  simp [Function.comp]
  ring

/-- Faithfulness of the closed form: with sufficient fuel, the literal
while-loop transcription computes exactly `sweepPositions`. -/
theorem whileLtLoop_eq_sweepPositions {stop span : ℚ} (hs : 0 < span) :
    ∀ fuel x, tileSteps x stop span ≤ fuel →
      whileLtLoop stop span fuel x = sweepPositions x stop span := by
  intro fuel
  induction fuel with
  | zero =>
    intro x hx
    have h0 : tileSteps x stop span = 0 := Nat.le_zero.mp hx
    by_cases h : x < stop
    · exact absurd h0 (by have := tileSteps_pos hs h; omega)
    · simp [whileLtLoop, sweepPositions_eq_nil hs h]
  | succ fuel ih =>
    intro x hx
    by_cases h : x < stop
    · rw [whileLtLoop, if_pos h, sweepPositions_cons hs h]
      have : tileSteps (x + span) stop span ≤ fuel := by
        rw [tileSteps_succ hs h]
        omega
      rw [ih (x + span) this]
    · simp [whileLtLoop, h, sweepPositions_eq_nil hs h]

theorem mem_sweepPositions {start stop span x : ℚ} (hs : 0 < span) :
    x ∈ sweepPositions start stop span ↔
      ∃ k : ℕ, x = start + (k : ℚ) * span ∧ start + (k : ℚ) * span < stop := by
  unfold sweepPositions
  simp only [List.mem_map, List.mem_range]
  constructor
  · rintro ⟨k, hk, rfl⟩
    refine ⟨k, rfl, ?_⟩
    have h1 : ((k : ℤ) : ℚ) < (stop - start) / span := by
      have hk2 : (k : ℤ) < Int.ceil ((stop - start) / span) := by
        unfold tileSteps at hk
        omega
      exact_mod_cast Int.lt_ceil.mp hk2
    push_cast at h1
    nlinarith [(lt_div_iff₀ hs).mp h1]
  · rintro ⟨k, rfl, hlt⟩
    refine ⟨k, ?_, rfl⟩
    have h1 : (k : ℚ) < (stop - start) / span := (lt_div_iff₀ hs).mpr (by linarith)
    have h2 : ((k : ℤ) : ℚ) < (stop - start) / span := by exact_mod_cast h1
    have h3 : (k : ℤ) < Int.ceil ((stop - start) / span) := Int.lt_ceil.mpr h2
    unfold tileSteps
    omega

theorem mem_tileBoundsAll {wb : TileB} {s : ℚ} (hs : 0 < s) {t : TileB} :
    t ∈ tileBoundsAll wb s ↔
      ∃ j k : ℕ, wb.west + (j : ℚ) * s < wb.east ∧ wb.south + (k : ℚ) * s < wb.north ∧
        t = mkTileB wb s s (wb.west + (j : ℚ) * s) (wb.south + (k : ℚ) * s) := by
  unfold tileBoundsAll
  simp only [List.mem_flatMap, List.mem_map, mem_sweepPositions hs]
  constructor
  · rintro ⟨x, ⟨j, rfl, hj⟩, y, ⟨k, rfl, hk⟩, rfl⟩
    exact ⟨j, k, hj, hk, rfl⟩
  · rintro ⟨j, k, hj, hk, rfl⟩
    exact ⟨_, ⟨j, rfl, hj⟩, _, ⟨k, rfl, hk⟩, rfl⟩

theorem south_abs_le_of_mem_tileBoundsList {wb : TileB} {tw th : ℚ} {b : TileB}
    (hb : b ∈ tileBoundsList wb tw th) : |b.south| ≤ polarThreshold := by
  unfold tileBoundsList at hb
  simp only [List.mem_flatMap, List.mem_filterMap] at hb
  obtain ⟨x, _, y, _, hsome⟩ := hb
  by_cases hcase : polarThreshold < |y|
  · simp [hcase] at hsome
  · rw [if_neg hcase] at hsome
    have hby : b = mkTileB wb tw th x y := (Option.some.injEq _ _).mp hsome |>.symm
    rw [hby]
    simpa [mkTileB] using le_of_not_lt hcase

theorem mkTileB_mem_tileBoundsList {wb : TileB} {tw th x y : ℚ}
    (hx : x ∈ sweepPositions wb.west wb.east tw)
    (hy : y ∈ sweepPositions wb.south wb.north th)
    (hpolar : ¬ polarThreshold < |y|) :
    mkTileB wb tw th x y ∈ tileBoundsList wb tw th := by
  unfold tileBoundsList
  exact List.mem_flatMap.mpr ⟨x, hx, List.mem_filterMap.mpr ⟨y, hy, by simp [hpolar]⟩⟩

theorem assignIds_length : ∀ (n : ℕ) (l : List TileB), (assignIds n l).length = l.length
  | _, [] => rfl
  | n, _ :: bs => by simp [assignIds, assignIds_length (n + 1) bs]

theorem assignIds_map_id :
    ∀ (n : ℕ) (l : List TileB), (assignIds n l).map Tile.id = List.range' n l.length
  | _, [] => rfl
  | n, b :: bs => by
    simp [assignIds, List.range'_succ, assignIds_map_id (n + 1) bs]

theorem bounds_mem_of_mem_assignIds {t : Tile} :
    ∀ {n : ℕ} {l : List TileB}, t ∈ assignIds n l → t.bounds ∈ l := by
  intro n l
  induction l generalizing n with
  | nil => simp [assignIds]
  | cons b bs ih =>
    intro ht
    rcases (by simpa [assignIds] using ht : t = ⟨n, b⟩ ∨ t ∈ assignIds (n + 1) bs) with h | h
    · simp [h]
    · exact List.mem_cons_of_mem _ (ih h)

theorem exists_mem_assignIds_of_mem {b : TileB} :
    ∀ {l : List TileB}, b ∈ l → ∀ n : ℕ, ∃ t ∈ assignIds n l, t.bounds = b := by
  intro l
  induction l with
  | nil => simp
  | cons c cs ih =>
    intro hb n
    rcases List.mem_cons.mp hb with h | h
    · exact ⟨⟨n, c⟩, List.mem_cons_self _ _, h ▸ rfl⟩
    · obtain ⟨t, ht, hteq⟩ := ih h (n + 1)
      exact ⟨t, List.mem_cons_of_mem _ ht, hteq⟩

/-- Claim C6: on every invocation of the partitioner the emitted tile ids are
unique, contiguous from 0 and strictly increasing in emission order (skipped
polar positions consume no id): the list of ids is exactly
`[0, 1, ..., length - 1]`. -/
theorem C6_tile_ids_contiguous (resolution : ℚ) :
    (get_world_tiles resolution).map Tile.id =
      List.range (get_world_tiles resolution).length := by
  unfold get_world_tiles
  rw [assignIds_map_id, assignIds_length, List.range_eq_range']

/-- Claim C2 (amended): the polar-exclusion test of app.py line 103 is applied
to the tile's south edge (the vertical cursor `y`), not to the vertical center:
every emitted tile has `|south| ≤ 15000000`, while its vertical center may
exceed the threshold (see `C2_counterexample`). -/
theorem C2_amended_south_within_threshold (resolution : ℚ) :
    ∀ t ∈ get_world_tiles resolution, |t.bounds.south| ≤ polarThreshold := by
  intro t ht
  exact south_abs_le_of_mem_tileBoundsList (bounds_mem_of_mem_assignIds ht)

/-- Claim C2 is false as stated: at resolution 5000 (tile span 5000000) the
partitioner emits a tile with south edge 14962491.66 and north edge
19962491.66, whose vertical center 17462491.66 exceeds the polar-exclusion
threshold 15000000. -/
theorem C2_counterexample :
    ∃ t, t ∈ get_world_tiles 5000 ∧
      polarThreshold < |(t.bounds.south + t.bounds.north) / 2| := by
  have hs : (0 : ℚ) < (5000 : ℚ) * 1000 := by norm_num
  have hx : worldBounds.west ∈
      sweepPositions worldBounds.west worldBounds.east ((5000 : ℚ) * 1000) := by
    rw [mem_sweepPositions hs]
    exact ⟨0, by norm_num, by norm_num [worldBounds]⟩
  have hy : worldBounds.south + (7 : ℚ) * ((5000 : ℚ) * 1000) ∈
      sweepPositions worldBounds.south worldBounds.north ((5000 : ℚ) * 1000) := by
    rw [mem_sweepPositions hs]
    exact ⟨7, by norm_num, by norm_num [worldBounds]⟩
  have hpolar : ¬ polarThreshold <
      |worldBounds.south + (7 : ℚ) * ((5000 : ℚ) * 1000)| := by
    rw [abs_of_nonneg (by norm_num [worldBounds])]
    norm_num [worldBounds, polarThreshold]
  have hmem := mkTileB_mem_tileBoundsList hx hy hpolar
  obtain ⟨t, ht, hteq⟩ := exists_mem_assignIds_of_mem hmem 0
  refine ⟨t, ht, ?_⟩
  rw [hteq]
  rw [show mkTileB worldBounds ((5000 : ℚ) * 1000) ((5000 : ℚ) * 1000)
        worldBounds.west (worldBounds.south + (7 : ℚ) * ((5000 : ℚ) * 1000)) =
      ⟨-2003750834/100, -1503750834/100, 1496249166/100, 1996249166/100⟩ by
    simp only [mkTileB, worldBounds]
    norm_num [min_def]]
  rw [abs_of_nonneg (by norm_num)]
  norm_num [polarThreshold]

/-- Witness for `C2_amended_south_within_threshold`: the first tile emitted at
resolution 20000 satisfies the amended bound. -/
theorem C2_amended_witness :
    |(Tile.mk 0 (mkTileB worldBounds ((20000 : ℚ) * 1000) ((20000 : ℚ) * 1000)
        worldBounds.west
        (worldBounds.south + (20000 : ℚ) * 1000))).bounds.south| ≤ polarThreshold := by
  have hs : (0 : ℚ) < (20000 : ℚ) * 1000 := by norm_num
  have hxcons : sweepPositions worldBounds.west worldBounds.east ((20000 : ℚ) * 1000) =
      worldBounds.west ::
        sweepPositions (worldBounds.west + (20000 : ℚ) * 1000)
          worldBounds.east ((20000 : ℚ) * 1000) :=
    sweepPositions_cons hs (by norm_num [worldBounds])
  have hycons : sweepPositions worldBounds.south worldBounds.north ((20000 : ℚ) * 1000) =
      worldBounds.south ::
        sweepPositions (worldBounds.south + (20000 : ℚ) * 1000)
          worldBounds.north ((20000 : ℚ) * 1000) :=
    sweepPositions_cons hs (by norm_num [worldBounds])
  have hycons2 : sweepPositions (worldBounds.south + (20000 : ℚ) * 1000)
        worldBounds.north ((20000 : ℚ) * 1000) =
      (worldBounds.south + (20000 : ℚ) * 1000) ::
        sweepPositions (worldBounds.south + (20000 : ℚ) * 1000 + (20000 : ℚ) * 1000)
          worldBounds.north ((20000 : ℚ) * 1000) :=
    sweepPositions_cons hs (by norm_num [worldBounds])
  have hskip0 : polarThreshold < |worldBounds.south| := by
    rw [abs_of_nonpos (by norm_num [worldBounds])]
    norm_num [worldBounds, polarThreshold]
  have hkeep1 : ¬ polarThreshold < |worldBounds.south + (20000 : ℚ) * 1000| := by
    rw [abs_of_nonpos (by norm_num [worldBounds])]
    norm_num [worldBounds, polarThreshold]
  have hhead : ∃ rest : List Tile,
      get_world_tiles 20000 =
        Tile.mk 0 (mkTileB worldBounds ((20000 : ℚ) * 1000) ((20000 : ℚ) * 1000)
          worldBounds.west (worldBounds.south + (20000 : ℚ) * 1000)) :: rest := by
    unfold get_world_tiles tileBoundsList
    rw [hxcons, List.flatMap_cons, hycons, hycons2, List.filterMap_cons,
      List.filterMap_cons, if_pos hskip0, if_neg hkeep1]
    exact ⟨_, rfl⟩
  obtain ⟨rest, hrest⟩ := hhead
  refine C2_amended_south_within_threshold 20000 _ ?_
  rw [hrest]
  exact List.mem_cons_self _ _

theorem sweep_index_unique {start span p : ℚ} (hs : 0 < span)
    (h1 : start ≤ p) :
    ∃ j : ℕ, start + (j : ℚ) * span ≤ p ∧ p < start + (j : ℚ) * span + span ∧
      ∀ j' : ℕ, start + (j' : ℚ) * span ≤ p → p < start + (j' : ℚ) * span + span →
        j' = j := by
  have hu0 : 0 ≤ (p - start) / span := div_nonneg (by linarith) hs.le
  have hjz0 : 0 ≤ Int.floor ((p - start) / span) := Int.floor_nonneg.mpr hu0
  refine ⟨(Int.floor ((p - start) / span)).toNat, ?_, ?_, ?_⟩
  · have hle : ((Int.floor ((p - start) / span) : ℚ)) ≤ (p - start) / span :=
      Int.floor_le _
    have := (le_div_iff₀ hs).mp hle
    have hcast : ((Int.floor ((p - start) / span)).toNat : ℚ) =
        ((Int.floor ((p - start) / span) : ℤ) : ℚ) := by
      exact_mod_cast congrArg (fun z : ℤ => (z : ℚ)) (Int.toNat_of_nonneg hjz0)
    rw [hcast]
    linarith
  · have hlt : (p - start) / span < Int.floor ((p - start) / span) + 1 :=
      Int.lt_floor_add_one _
    have := (div_lt_iff₀ hs).mp hlt
    have hcast : ((Int.floor ((p - start) / span)).toNat : ℚ) =
        ((Int.floor ((p - start) / span) : ℤ) : ℚ) := by
      exact_mod_cast congrArg (fun z : ℤ => (z : ℚ)) (Int.toNat_of_nonneg hjz0)
    rw [hcast]
    nlinarith
  · intro j' hle hlt
    have h1' : ((j' : ℤ) : ℚ) ≤ (p - start) / span := by
      rw [le_div_iff₀ hs]
      push_cast
      linarith
    have h2' : (p - start) / span < ((j' : ℤ) : ℚ) + 1 := by
      rw [div_lt_iff₀ hs]
      push_cast
      linarith
    have hfl : Int.floor ((p - start) / span) = (j' : ℤ) := by
      rw [Int.floor_eq_iff]
      exact ⟨h1', by push_cast at h2' ⊢; linarith⟩
    omega

/-- Claim C4: ignoring polar exclusion, for every world bounds rectangle and
positive tile span the sweep produces clamped tiles (`east ≤ wb.east`,
`north ≤ wb.north`) that tile the half-open world rectangle exactly: a point
lies in the world bounds iff exactly one produced tile contains it (tiles read
as half-open on their east/north edges, the shared-edge convention of the
spec). -/
theorem C4_partition_disjoint_cover (wb : TileB) (s : ℚ) (hs : 0 < s) :
    (∀ t ∈ tileBoundsAll wb s, t.east ≤ wb.east ∧ t.north ≤ wb.north) ∧
    (∀ p q : ℚ,
      (wb.west ≤ p ∧ p < wb.east ∧ wb.south ≤ q ∧ q < wb.north) ↔
      (∃! t : TileB, t ∈ tileBoundsAll wb s ∧
        t.west ≤ p ∧ p < t.east ∧ t.south ≤ q ∧ q < t.north)) := by
  constructor
  · intro t ht
    obtain ⟨j, k, _, _, rfl⟩ := (mem_tileBoundsAll hs).mp ht
    exact ⟨min_le_right _ _, min_le_right _ _⟩
  · intro p q
    constructor
    · rintro ⟨hpw, hpe, hqs, hqn⟩
      obtain ⟨j, hj1, hj2, hju⟩ := @sweep_index_unique wb.west s p hs hpw
      obtain ⟨k, hk1, hk2, hku⟩ := @sweep_index_unique wb.south s q hs hqs
      refine ⟨mkTileB wb s s (wb.west + (j : ℚ) * s) (wb.south + (k : ℚ) * s),
        ⟨(mem_tileBoundsAll hs).mpr
          ⟨j, k, lt_of_le_of_lt hj1 hpe, lt_of_le_of_lt hk1 hqn, rfl⟩,
         hj1, lt_min (by linarith) hpe, hk1, lt_min (by linarith) hqn⟩, ?_⟩
      rintro t' ⟨ht'mem, hw', he', hs', hn'⟩
      obtain ⟨j', k', _, _, rfl⟩ := (mem_tileBoundsAll hs).mp ht'mem
      have hj'j : j' = j := by
        refine hju j' hw' ?_
        have : p < wb.west + (j' : ℚ) * s + s :=
          lt_of_lt_of_le he' (by simp [mkTileB])
        linarith
      have hk'k : k' = k := by
        refine hku k' hs' ?_
        have : q < wb.south + (k' : ℚ) * s + s :=
          lt_of_lt_of_le hn' (by simp [mkTileB])
        linarith
      rw [hj'j, hk'k]
    · rintro ⟨t, ⟨htmem, hw, he, hs', hn⟩, _⟩
      obtain ⟨j, k, hje, hkn, rfl⟩ := (mem_tileBoundsAll hs).mp htmem
      simp only [mkTileB] at hw he hs' hn
      have hj0 : (0 : ℚ) ≤ (j : ℚ) * s := by positivity
      have hk0 : (0 : ℚ) ≤ (k : ℚ) * s := by positivity
      exact ⟨by linarith, lt_of_lt_of_le he (min_le_right _ _),
        by linarith, lt_of_lt_of_le hn (min_le_right _ _)⟩

/-- Witness for `C4_partition_disjoint_cover`: instantiated at the unit world
square with tile span 1. -/
theorem C4_witness :
    (0 : ℚ) < 1 ∧
    ((∀ t ∈ tileBoundsAll ⟨0, 1, 0, 1⟩ 1, t.east ≤ (⟨0, 1, 0, 1⟩ : TileB).east ∧
        t.north ≤ (⟨0, 1, 0, 1⟩ : TileB).north) ∧
      (∀ p q : ℚ,
        ((⟨0, 1, 0, 1⟩ : TileB).west ≤ p ∧ p < (⟨0, 1, 0, 1⟩ : TileB).east ∧
          (⟨0, 1, 0, 1⟩ : TileB).south ≤ q ∧ q < (⟨0, 1, 0, 1⟩ : TileB).north) ↔
        (∃! t : TileB, t ∈ tileBoundsAll ⟨0, 1, 0, 1⟩ 1 ∧
          t.west ≤ p ∧ p < t.east ∧ t.south ≤ q ∧ q < t.north))) :=
  ⟨by norm_num, C4_partition_disjoint_cover ⟨0, 1, 0, 1⟩ 1 (by norm_num)⟩

/-! ## Constructor (`Sentinel2ColorConverter.__init__`, app.py lines 18-24) -/

/-- Right-hand sides occurring in the `self.x = ...` assignments of
`__init__`: a string literal, a parameter reference, the literal `None`, or an
f-string interpolating one name. -/
inductive PyExpr where
  | strLit (s : String)
  | param (n : String)
  | noneLit
  | fstr (pre : String) (n : String) (suf : String)
deriving DecidableEq

/-- Module-level names of app.py (its imports and top-level definitions).
Note `base_url` is not among them, and it is not a builtin either. -/
def moduleGlobals : List String :=
  ["requests", "json", "np", "Image", "io", "time", "os", "datetime", "base64",
   "Sentinel2ColorConverter", "main"]

def nameError (n : String) : String :=
  "NameError: name " ++ n ++ " is not defined"

/-- Python name resolution inside `__init__`: local scope first, then module
globals (builtins hold no name used here); an unbound name raises NameError. -/
def resolveName (locals : List (String × Option String)) (n : String) :
    Except String (Option String) :=
  match locals.lookup n with
  | some v => Except.ok v
  | none =>
    if moduleGlobals.contains n then Except.ok (some ("<module attribute " ++ n ++ ">"))
    else Except.error (nameError n)

def evalPyExpr (locals : List (String × Option String)) :
    PyExpr → Except String (Option String)
  | .strLit s => Except.ok (some s)
  | .param n => resolveName locals n
  | .noneLit => Except.ok none
  | .fstr pre n suf =>
    match resolveName locals n with
    | Except.error e => Except.error e
    | Except.ok (some v) => Except.ok (some (pre ++ v ++ suf))
    | Except.ok none => Except.ok (some (pre ++ "None" ++ suf))

/-- The assignment sequence of `__init__` (app.py lines 20-24), in order:
each statement binds an attribute of `self` — crucially, the assignment on
line 23 binds `self.base_url`, a field, not a local variable, so the bare name
`base_url` in the f-string on line 24 is unbound. -/
def initBody : List (String × PyExpr) :=
  [("client_id", .param ("client_id")),
   ("client_secret", .param ("client_secret")),
   ("access_token", .noneLit),
   ("base_url", .strLit ("https://sh.dataspace.copernicus.eu")),
   ("process_url", .fstr ("") ("base_url") ("/api/v1/process"))]

def runInitAux (locals : List (String × Option String)) :
    List (String × PyExpr) → List (String × Option String) →
      Except String (List (String × Option String))
  | [], fields => Except.ok fields
  | (f, e) :: rest, fields =>
    match evalPyExpr locals e with
    | Except.error err => Except.error err
    | Except.ok v => runInitAux locals rest (fields ++ [(f, v)])

/-- `Sentinel2ColorConverter(client_id, client_secret)`: the locals of
`__init__` are `self` and the two parameters; the body is executed in order
and the resulting attribute dictionary of `self` is returned, or the first
raised error. -/
def Sentinel2ColorConverter_init (client_id client_secret : String) :
    Except String (List (String × Option String)) :=
  runInitAux
    [("self", some ("<Sentinel2ColorConverter object>")),
     ("client_id", some client_id), ("client_secret", some client_secret)]
    initBody []

/-- Claim C1: for every client_id and client_secret, constructing the
converter raises NameError on line 24 (the f-string references the unbound
bare name `base_url` instead of `self.base_url`), so construction never
succeeds and no method (authentication, partitioning, fetching, processing)
can ever run on an instance. -/
theorem C1_init_always_name_error (client_id client_secret : String) :
    Sentinel2ColorConverter_init client_id client_secret =
      Except.error (nameError ("base_url")) := rfl

/-! ## Image fetcher (`fetch_tile_image`, app.py lines 168-198) -/

/-- Outcome of one HTTP POST to the process endpoint, as seen by the retry
loop: a decoded image (status 200), some other status code, or a raised
exception (transport error, timeout, decode failure). -/
inductive FetchResp (Img : Type) where
  | ok (img : Img)
  | status (code : ℕ)
  | exc

/-- Observable events of the retry loop: one `requestMade i` per loop
iteration (attempt index `i`), and one `slept t` per `time.sleep(t)` call. -/
inductive FetchEv where
  | requestMade (i : ℕ)
  | slept (t : ℕ)
deriving DecidableEq

/-- The `for attempt in range(retries)` loop of app.py lines 177-197, fuelled
by the number of remaining iterations; `resp` is the provider collaborator
(attempt index to response).  Status 200 returns immediately; status 429
sleeps `2 ** attempt` (even on the last attempt) and retries; any other
status only logs; an exception sleeps `2 ** attempt` only when
`attempt < retries - 1`.  Returns the result together with the event trace. -/
def fetchAux {Img : Type} (resp : ℕ → FetchResp Img) (retries : ℕ) :
    ℕ → ℕ → Option Img × List FetchEv
  | 0, _ => (none, [])
  | fuel + 1, a =>
    match resp a with
    | .ok img => (some img, [FetchEv.requestMade a])
    | .status code =>
      if code = 429 then
        let r := fetchAux resp retries fuel (a + 1)
        (r.1, FetchEv.requestMade a :: FetchEv.slept (2 ^ a) :: r.2)
      else
        let r := fetchAux resp retries fuel (a + 1)
        (r.1, FetchEv.requestMade a :: r.2)
    | .exc =>
      if a < retries - 1 then
        let r := fetchAux resp retries fuel (a + 1)
        (r.1, FetchEv.requestMade a :: FetchEv.slept (2 ^ a) :: r.2)
      else
        let r := fetchAux resp retries fuel (a + 1)
        (r.1, FetchEv.requestMade a :: r.2)

/-- app.py `fetch_tile_image(tile_bounds, retries=3)` modulo the request
payload (sent unchanged to the provider collaborator `resp`): the loop runs
attempts `0, ..., retries - 1` and falls through to `return None`. -/
def fetch_tile_image {Img : Type} (resp : ℕ → FetchResp Img) (retries : ℕ) :
    Option Img × List FetchEv :=
  fetchAux resp retries retries 0

/-- A provider that is rate-limited on every attempt. -/
def always429 (Img : Type) : ℕ → FetchResp Img := fun _ => FetchResp.status 429

theorem fetchAux_always429 {Img : Type} (retries : ℕ) :
    ∀ fuel a, fetchAux (always429 Img) retries fuel a =
      (none, (List.range' a fuel).flatMap
        (fun i => [FetchEv.requestMade i, FetchEv.slept (2 ^ i)])) := by
  intro fuel
  induction fuel with
  | zero => intro a; rfl
  | succ fuel ih =>
    intro a
    rw [List.range'_succ, List.flatMap_cons]
    simp only [fetchAux, always429, if_pos rfl, ih (a + 1)]
    rfl

/-- Claim C3 (amended): against an always-rate-limited provider,
`fetch_tile_image` makes exactly `retries` requests, sleeps `2 ^ i` after the
i-th rate-limited attempt — including after the final one, since the 429
branch of app.py line 189 is not guarded by `attempt < retries - 1` — and
returns `None`; the sleep durations `2^0, 2^1, ...` are strictly
increasing. -/
theorem C3_amended_always429_trace {Img : Type} (retries : ℕ) :
    fetch_tile_image (always429 Img) retries =
      (none, (List.range retries).flatMap
        (fun i => [FetchEv.requestMade i, FetchEv.slept (2 ^ i)])) ∧
    ((fetch_tile_image (always429 Img) retries).2.filterMap
        (fun e => match e with | FetchEv.slept t => some t | _ => none)) =
      (List.range retries).map (fun i => 2 ^ i) ∧
    List.Pairwise (· < ·)
      ((fetch_tile_image (always429 Img) retries).2.filterMap
        (fun e => match e with | FetchEv.slept t => some t | _ => none)) := by
  have htr : fetch_tile_image (always429 Img) retries =
      (none, (List.range retries).flatMap
        (fun i => [FetchEv.requestMade i, FetchEv.slept (2 ^ i)])) := by
    unfold fetch_tile_image
    rw [fetchAux_always429, List.range_eq_range']
  have hgen : ∀ n : ℕ, (((List.range n).flatMap
        (fun i => [FetchEv.requestMade i, FetchEv.slept (2 ^ i)])).filterMap
        (fun e => match e with | FetchEv.slept t => some t | _ => none)) =
      (List.range n).map (fun i => 2 ^ i) := by
    intro n
    induction n with
    | zero => rfl
    | succ m ihm =>
      rw [List.range_succ]
      simp only [List.flatMap_append, List.flatMap_cons, List.flatMap_nil,
        List.filterMap_append, List.map_append, ihm]
      rfl
  have hsleeps : ((fetch_tile_image (always429 Img) retries).2.filterMap
        (fun e => match e with | FetchEv.slept t => some t | _ => none)) =
      (List.range retries).map (fun i => 2 ^ i) := by
    rw [htr]
    exact hgen retries
  refine ⟨htr, hsleeps, ?_⟩
  rw [hsleeps]
  refine List.Pairwise.map _ (fun a b hab => ?_) (List.pairwise_lt_range retries)
  exact Nat.pow_lt_pow_right Nat.one_lt_two hab

/-- Claim C3 is false as stated: with the default 3 attempts against an
always-429 provider the trace contains a sleep after the final attempt (the
last event is `slept 4`), so there are 3 waits for 3 attempts, not waits
"only between consecutive attempts". -/
theorem C3_counterexample :
    fetch_tile_image (always429 Unit) 3 =
      (none,
        [FetchEv.requestMade 0, FetchEv.slept 1, FetchEv.requestMade 1,
         FetchEv.slept 2, FetchEv.requestMade 2, FetchEv.slept 4]) ∧
    (fetch_tile_image (always429 Unit) 3).2.getLast? =
      some (FetchEv.slept 4) := by
  constructor <;> rfl

/-! ## Color reducer (`image_to_dominant_color`, app.py lines 200-240) -/

/-- Python `round(q, 3)` on exact values: round to the nearest multiple of
1/1000, ties to even (banker's rounding). -/
def round3 (q : ℚ) : ℚ :=
  let s := q * 1000
  let f := Int.floor s
  let r := s - (f : ℚ)
  let n : ℤ :=
    if r < 1/2 then f
    else if 1/2 < r then f + 1
    else if f % 2 = 0 then f else f + 1
  (n : ℚ) / 1000

theorem round3_eq (q : ℚ) :
    round3 q =
      ((if q * 1000 - (Int.floor (q * 1000) : ℚ) < 1/2 then Int.floor (q * 1000)
        else if 1/2 < q * 1000 - (Int.floor (q * 1000) : ℚ) then Int.floor (q * 1000) + 1
        else if Int.floor (q * 1000) % 2 = 0 then Int.floor (q * 1000)
        else Int.floor (q * 1000) + 1 : ℤ) : ℚ) / 1000 := rfl

/-- Cell slice sizes of app.py lines 214-215: the resized array has
`grid_size * 16` rows and columns, and the cell size is their integer quotient
by `grid_size`. -/
def cell_height (grid_size : ℕ) : ℕ := (grid_size * 16) / grid_size

def cell_width (grid_size : ℕ) : ℕ := (grid_size * 16) / grid_size

/-- Mean of one channel over the cell `[ys, ye) × [xs, xe)` of the resized
pixel array (app.py lines 226-229: `np.mean(cell.reshape(-1, 3), axis=0)`). -/
def cellMean (arr : ℕ → ℕ → Fin 3 → Fin 256) (ys ye xs xe : ℕ) (c : Fin 3) : ℚ :=
  (∑ y ∈ Finset.Ico ys ye, ∑ x ∈ Finset.Ico xs xe, ((arr y x c : ℕ) : ℚ)) /
    (((ye - ys) * (xe - xs) : ℕ) : ℚ)

/-- The nested cell loop of app.py lines 217-238 applied to the resized pixel
array: a `grid_size × grid_size` row-major grid whose cells are the
`[r, g, b]` channel means normalized by 255 and rounded to 3 decimals
(lines 232-236). -/
def colorsOfArray (arr : ℕ → ℕ → Fin 3 → Fin 256) (grid_size : ℕ) :
    List (List (List ℚ)) :=
  (List.range grid_size).map (fun i =>
    (List.range grid_size).map (fun j =>
      [round3 (cellMean arr (i * cell_height grid_size) ((i + 1) * cell_height grid_size)
          (j * cell_width grid_size) ((j + 1) * cell_width grid_size) 0 / 255),
       round3 (cellMean arr (i * cell_height grid_size) ((i + 1) * cell_height grid_size)
          (j * cell_width grid_size) ((j + 1) * cell_width grid_size) 1 / 255),
       round3 (cellMean arr (i * cell_height grid_size) ((i + 1) * cell_height grid_size)
          (j * cell_width grid_size) ((j + 1) * cell_width grid_size) 2 / 255)]))

/-- app.py `image_to_dominant_color(image, grid_size=4)`.  The PIL
collaborators are parameters: `convertRGB` is the mode conversion of lines
206-207 and `resize` is the LANCZOS resize of line 210, producing the
`grid_size * 16 × grid_size * 16` uint8 RGB array of line 211 (modelled as a
total function; only indices inside the array are ever read). -/
def image_to_dominant_color {Img : Type} (convertRGB : Img → Img)
    (resize : Img → ℕ → ℕ → ℕ → Fin 3 → Fin 256)
    (image : Option Img) (grid_size : ℕ) : Option (List (List (List ℚ))) :=
  match image with
  | none => none
  | some img => some (colorsOfArray (resize (convertRGB img) grid_size) grid_size)

/-- Claim C9: calling the reducer with an absent image returns absent, for
every grid size (app.py lines 202-203). -/
theorem C9_absent_image {Img : Type} (convertRGB : Img → Img)
    (resize : Img → ℕ → ℕ → ℕ → Fin 3 → Fin 256) (grid_size : ℕ) :
    image_to_dominant_color convertRGB resize none grid_size = none := rfl

/-- Claim C10: because the image is resized to exactly `grid_size * 16` pixels
per side, integer division makes every cell exactly 16 × 16, no remainder
pixels are dropped (`grid_size * cell_height = grid_size * 16`), and every
pixel row index lands in exactly one cell row (and by the identical
`cell_width`, likewise for columns). -/
theorem C10_cells_exact (grid_size : ℕ) (hg : 0 < grid_size) :
    cell_height grid_size = 16 ∧ cell_width grid_size = 16 ∧
    grid_size * cell_height grid_size = grid_size * 16 ∧
    ∀ p < grid_size * 16, ∃! i : ℕ, i < grid_size ∧
      i * cell_height grid_size ≤ p ∧ p < (i + 1) * cell_height grid_size := by
  have hch : cell_height grid_size = 16 := by
    unfold cell_height
    exact Nat.mul_div_cancel_left 16 hg
  have hcw : cell_width grid_size = 16 := by
    unfold cell_width
    exact Nat.mul_div_cancel_left 16 hg
  refine ⟨hch, hcw, by rw [hch], ?_⟩
  intro p hp
  rw [hch]
  refine ⟨p / 16, ⟨?_, ?_, ?_⟩, fun y hy => ?_⟩ <;> omega

/-- Witness for `C10_cells_exact` at grid size 1. -/
theorem C10_witness :
    0 < 1 ∧ (cell_height 1 = 16 ∧ cell_width 1 = 16 ∧
      1 * cell_height 1 = 1 * 16 ∧
      ∀ p < 1 * 16, ∃! i : ℕ, i < 1 ∧
        i * cell_height 1 ≤ p ∧ p < (i + 1) * cell_height 1) :=
  ⟨Nat.one_pos, C10_cells_exact 1 Nat.one_pos⟩

theorem round3_bounds {q : ℚ} (h0 : 0 ≤ q) (h1 : q ≤ 1) :
    0 ≤ round3 q ∧ round3 q ≤ 1 ∧ ∃ k : ℤ, round3 q = (k : ℚ) / 1000 := by
  have key : ∀ n : ℤ, 0 ≤ n → n ≤ 1000 →
      0 ≤ ((n : ℤ) : ℚ) / 1000 ∧ ((n : ℤ) : ℚ) / 1000 ≤ 1 ∧
        ∃ k : ℤ, ((n : ℤ) : ℚ) / 1000 = (k : ℚ) / 1000 := by
    intro n hn0 hn1
    refine ⟨by positivity, ?_, ⟨n, rfl⟩⟩
    rw [div_le_one (by norm_num)]
    exact_mod_cast hn1
  have hs0 : (0 : ℚ) ≤ q * 1000 := by positivity
  have hs1 : q * 1000 ≤ 1000 := by nlinarith
  have hf0 : 0 ≤ Int.floor (q * 1000) := Int.floor_nonneg.mpr hs0
  have hfle : ((Int.floor (q * 1000) : ℤ) : ℚ) ≤ q * 1000 := Int.floor_le _
  have hf1000 : Int.floor (q * 1000) ≤ 1000 := by
    have h := Int.floor_le_floor hs1
    simpa using h
  rw [round3_eq]
  split_ifs with hr1 hr2 hpar
  · exact key _ hf0 hf1000
  · refine key _ (by omega) ?_
    have hstrict : ((Int.floor (q * 1000) : ℤ) : ℚ) + 1/2 < q * 1000 := by linarith
    have : ((Int.floor (q * 1000) : ℤ) : ℚ) < 1000 := by linarith
    have hlt : Int.floor (q * 1000) < 1000 := by exact_mod_cast this
    omega
  · exact key _ hf0 hf1000
  · refine key _ (by omega) ?_
    have hge : ((Int.floor (q * 1000) : ℤ) : ℚ) + 1/2 ≤ q * 1000 := by linarith
    have : ((Int.floor (q * 1000) : ℤ) : ℚ) < 1000 := by linarith
    have hlt : Int.floor (q * 1000) < 1000 := by exact_mod_cast this
    omega

theorem cellMean_nonneg (arr : ℕ → ℕ → Fin 3 → Fin 256) (ys ye xs xe : ℕ)
    (c : Fin 3) : 0 ≤ cellMean arr ys ye xs xe c := by
  unfold cellMean
  apply div_nonneg _ (by positivity)
  exact Finset.sum_nonneg (fun y _ => Finset.sum_nonneg (fun x _ => by positivity))

theorem cellMean_le_255 (arr : ℕ → ℕ → Fin 3 → Fin 256) {ys ye xs xe : ℕ}
    (hy : ys < ye) (hx : xs < xe) (c : Fin 3) :
    cellMean arr ys ye xs xe c ≤ 255 := by
  unfold cellMean
  have hposn : 0 < (ye - ys) * (xe - xs) := Nat.mul_pos (by omega) (by omega)
  have hpos : (0 : ℚ) < (((ye - ys) * (xe - xs) : ℕ) : ℚ) := by exact_mod_cast hposn
  rw [div_le_iff₀ hpos]
  have hsum : ∑ y ∈ Finset.Ico ys ye, ∑ x ∈ Finset.Ico xs xe, ((arr y x c : ℕ) : ℚ) ≤
      ∑ _y ∈ Finset.Ico ys ye, ∑ _x ∈ Finset.Ico xs xe, (255 : ℚ) := by
    refine Finset.sum_le_sum (fun y _ => Finset.sum_le_sum (fun x _ => ?_))
    exact_mod_cast Nat.lt_succ_iff.mp (arr y x c).isLt
  have hconst : ∑ _y ∈ Finset.Ico ys ye, ∑ _x ∈ Finset.Ico xs xe, (255 : ℚ) =
      ((ye - ys : ℕ) : ℚ) * (((xe - xs : ℕ) : ℚ) * 255) := by
    simp [Finset.sum_const, Nat.card_Ico, nsmul_eq_mul]
  rw [hconst] at hsum
  calc ∑ y ∈ Finset.Ico ys ye, ∑ x ∈ Finset.Ico xs xe, ((arr y x c : ℕ) : ℚ)
      ≤ ((ye - ys : ℕ) : ℚ) * (((xe - xs : ℕ) : ℚ) * 255) := hsum
    _ = 255 * (((ye - ys) * (xe - xs) : ℕ) : ℚ) := by push_cast; ring

/-- Claim C7: every channel value in every cell of a produced ColorGrid lies
in `[0, 1]` and is an exact multiple of 1/1000 (3 decimal places): it is the
per-cell channel mean of 8-bit pixels divided by 255 and rounded. -/
theorem C7_channels_bounded (arr : ℕ → ℕ → Fin 3 → Fin 256) (grid_size : ℕ)
    (hg : 0 < grid_size) :
    ∀ row ∈ colorsOfArray arr grid_size, ∀ cell ∈ row, ∀ v ∈ cell,
      0 ≤ v ∧ v ≤ 1 ∧ ∃ k : ℤ, v = (k : ℚ) / 1000 := by
  have hch : cell_height grid_size = 16 := Nat.mul_div_cancel_left 16 hg
  have hcw : cell_width grid_size = 16 := Nat.mul_div_cancel_left 16 hg
  intro row hrow cell hcell v hv
  obtain ⟨i, _, rfl⟩ := List.mem_map.mp hrow
  obtain ⟨j, _, rfl⟩ := List.mem_map.mp hcell
  have hdy : i * cell_height grid_size < (i + 1) * cell_height grid_size := by
    rw [hch]; omega
  have hdx : j * cell_width grid_size < (j + 1) * cell_width grid_size := by
    rw [hcw]; omega
  have hbound : ∀ c : Fin 3,
      0 ≤ round3 (cellMean arr (i * cell_height grid_size)
          ((i + 1) * cell_height grid_size) (j * cell_width grid_size)
          ((j + 1) * cell_width grid_size) c / 255) ∧
      round3 (cellMean arr (i * cell_height grid_size)
          ((i + 1) * cell_height grid_size) (j * cell_width grid_size)
          ((j + 1) * cell_width grid_size) c / 255) ≤ 1 ∧
      ∃ k : ℤ, round3 (cellMean arr (i * cell_height grid_size)
          ((i + 1) * cell_height grid_size) (j * cell_width grid_size)
          ((j + 1) * cell_width grid_size) c / 255) = (k : ℚ) / 1000 := by
    intro c
    refine round3_bounds (div_nonneg (cellMean_nonneg arr _ _ _ _ c) (by norm_num)) ?_
    rw [div_le_one (by norm_num)]
    exact cellMean_le_255 arr hdy hdx c
  simp only [List.mem_cons, List.not_mem_nil, or_false] at hv
  rcases hv with rfl | rfl | rfl
  · exact hbound 0
  · exact hbound 1
  · exact hbound 2

/-- All-black resized array used to witness the reducer theorems. -/
def constArr : ℕ → ℕ → Fin 3 → Fin 256 := fun _ _ _ => 0

/-- Witness for `C7_channels_bounded` at grid size 1 on the all-black
array. -/
theorem C7_witness :
    0 < 1 ∧ (∀ row ∈ colorsOfArray constArr 1, ∀ cell ∈ row, ∀ v ∈ cell,
      0 ≤ v ∧ v ≤ 1 ∧ ∃ k : ℤ, v = (k : ℚ) / 1000) :=
  ⟨Nat.one_pos, C7_channels_bounded constArr 1 Nat.one_pos⟩

theorem cellMean_const (col : Fin 3 → Fin 256) {ys ye xs xe : ℕ}
    (hy : ys < ye) (hx : xs < xe) (ch : Fin 3) :
    cellMean (fun _ _ k => col k) ys ye xs xe ch = ((col ch : ℕ) : ℚ) := by
  unfold cellMean
  have hne : (((ye - ys) * (xe - xs) : ℕ) : ℚ) ≠ 0 := by
    have hposn : 0 < (ye - ys) * (xe - xs) := Nat.mul_pos (by omega) (by omega)
    exact_mod_cast hposn.ne'
  simp only [Finset.sum_const, Nat.card_Ico, nsmul_eq_mul]
  rw [div_eq_iff hne]
  push_cast
  ring

theorem map_range_const {α : Type} (g : ℕ) (f : ℕ → α) (b : α)
    (h : ∀ i < g, f i = b) : (List.range g).map f = List.replicate g b := by
  refine List.eq_replicate_iff.mpr ⟨by simp, ?_⟩
  intro x hx
  obtain ⟨i, hi, rfl⟩ := List.mem_map.mp hx
  exact h i (List.mem_range.mp hi)

/-- Claim C8: on a uniform-color image (the resize collaborator returns the
constant array `col`), the reducer returns a `grid_size × grid_size` grid in
which every cell is that color normalized: each channel divided by 255 and
rounded to 3 decimals. -/
theorem C8_uniform_image {Img : Type} (convertRGB : Img → Img)
    (resize : Img → ℕ → ℕ → ℕ → Fin 3 → Fin 256) (img : Img) (grid_size : ℕ)
    (col : Fin 3 → Fin 256) (hg : 0 < grid_size)
    (hres : ∀ y x k, resize (convertRGB img) grid_size y x k = col k) :
    image_to_dominant_color convertRGB resize (some img) grid_size =
      some (List.replicate grid_size (List.replicate grid_size
        [round3 (((col 0 : ℕ) : ℚ) / 255), round3 (((col 1 : ℕ) : ℚ) / 255),
         round3 (((col 2 : ℕ) : ℚ) / 255)])) := by
  have harr : resize (convertRGB img) grid_size = fun _ _ k => col k := by
    funext y x k
    exact hres y x k
  have hred : image_to_dominant_color convertRGB resize (some img) grid_size =
      some (colorsOfArray (resize (convertRGB img) grid_size) grid_size) := rfl
  rw [hred, harr]
  refine congrArg some ?_
  unfold colorsOfArray
  have hch : cell_height grid_size = 16 := Nat.mul_div_cancel_left 16 hg
  have hcw : cell_width grid_size = 16 := Nat.mul_div_cancel_left 16 hg
  refine map_range_const _ _ _ (fun i _ => ?_)
  refine map_range_const _ _ _ (fun j _ => ?_)
  have hdy : i * cell_height grid_size < (i + 1) * cell_height grid_size := by
    rw [hch]; omega
  have hdx : j * cell_width grid_size < (j + 1) * cell_width grid_size := by
    rw [hcw]; omega
  rw [cellMean_const col hdy hdx 0, cellMean_const col hdy hdx 1,
    cellMean_const col hdy hdx 2]

/-- Constant-black resize collaborator used to witness `C8_uniform_image`. -/
def constResize : Unit → ℕ → ℕ → ℕ → Fin 3 → Fin 256 := fun _ _ _ _ _ => 0

/-- Witness for `C8_uniform_image`: grid size 1, uniform black image. -/
theorem C8_witness :
    0 < 1 ∧
    (∀ y x k, constResize (id ()) 1 y x k = (fun _ : Fin 3 => (0 : Fin 256)) k) ∧
    image_to_dominant_color id constResize (some ()) 1 =
      some (List.replicate 1 (List.replicate 1
        [round3 ((((0 : Fin 256) : ℕ) : ℚ) / 255),
         round3 ((((0 : Fin 256) : ℕ) : ℚ) / 255),
         round3 ((((0 : Fin 256) : ℕ) : ℚ) / 255)])) :=
  ⟨Nat.one_pos, fun _ _ _ => rfl,
    C8_uniform_image id constResize () 1 (fun _ => 0) Nat.one_pos (fun _ _ _ => rfl)⟩

/-! ## World processor (`process_world_colors`, app.py lines 242-299) -/

/-- One entry of the `tiles` array of the output JSON (app.py lines
270-275). -/
structure TileResult where
  id : ℕ
  bounds : TileB
  colors : Option (List (List (List ℚ)))
  has_data : Bool
deriving DecidableEq

/-- The `metadata` object of app.py lines 248-254 (`generated` is supplied by
the clock collaborator). -/
structure WorldMeta where
  generated : String
  resolution_km : ℚ
  format : String
  coordinate_system : String
  description : String
deriving DecidableEq

/-- The accumulated output dataset (app.py lines 247-256). -/
structure WorldData where
  metadata : WorldMeta
  tiles : List TileResult
deriving DecidableEq

/-- File-system collaborator: a JSON dump `json.dump(world_data, f)` to a
named file is modelled as storing the dataset value under the name. -/
def setFile (fs : String → Option WorldData) (name : String) (wd : WorldData) :
    String → Option WorldData :=
  fun n => if n = name then some wd else fs n

/-- File-system collaborator for `os.remove`. -/
def removeFile (fs : String → Option WorldData) (name : String) :
    String → Option WorldData :=
  fun n => if n = name then none else fs n

/-- Python truthiness of `self.access_token` in `if not self.access_token`
(app.py line 244): absent or empty string is falsy. -/
def tokenFalsy : Option String → Bool
  | none => true
  | some t => t = ""

/-- The `for i, tile in enumerate(tiles)` loop of app.py lines 261-286: fetch,
reduce (with the hardcoded default `grid_size = 4`), append a TileResult, and
every 10th iteration checkpoint the whole dataset to `temp_<output_file>`.
The fixed 1-unit inter-tile sleep has no observable effect on the dataset or
files and is not recorded. -/
def processTilesAux {Img : Type} (convertRGB : Img → Img)
    (resize : Img → ℕ → ℕ → ℕ → Fin 3 → Fin 256) (fetch : TileB → Option Img)
    (output_file : String) :
    List (ℕ × Tile) → WorldData → (String → Option WorldData) →
      WorldData × (String → Option WorldData)
  | [], wd, fs => (wd, fs)
  | (i, tile) :: rest, wd, fs =>
    let image := fetch tile.bounds
    let colors := image_to_dominant_color convertRGB resize image 4
    let tile_data : TileResult := ⟨tile.id, tile.bounds, colors, colors.isSome⟩
    let wd2 : WorldData := ⟨wd.metadata, wd.tiles ++ [tile_data]⟩
    let fs2 := if (i + 1) % 10 = 0 then setFile fs ("temp_" ++ output_file) wd2 else fs
    processTilesAux convertRGB resize fetch output_file rest wd2 fs2

/-- app.py `process_world_colors(output_file, resolution)`: authenticate if
the token is falsy (the authentication collaborator `auth` either yields a
token or raises, which aborts the run), generate tiles, run the per-tile
loop, write the final file, and remove the temp checkpoint if present
(lines 288-299). -/
def process_world_colors {Img : Type} (convertRGB : Img → Img)
    (resize : Img → ℕ → ℕ → ℕ → Fin 3 → Fin 256) (fetch : TileB → Option Img)
    (access_token : Option String) (auth : Except String String)
    (now output_file : String) (resolution : ℚ)
    (fs0 : String → Option WorldData) :
    Except String (WorldData × (String → Option WorldData)) :=
  match (if tokenFalsy access_token then auth
         else Except.ok (access_token.getD (""))) with
  | Except.error e => Except.error e
  | Except.ok _ =>
    let world_data : WorldData :=
      ⟨⟨now, resolution, "roblox_color3", "EPSG:3857",
        "World satellite imagery colors from Sentinel-2 cloudless"⟩, []⟩
    let tiles := get_world_tiles resolution
    let r := processTilesAux convertRGB resize fetch output_file
      tiles.enum world_data fs0
    let fs2 := setFile r.2 output_file r.1
    let fs3 := if (fs2 ("temp_" ++ output_file)).isSome
      then removeFile fs2 ("temp_" ++ output_file) else fs2
    Except.ok (r.1, fs3)

theorem processTilesAux_fetch_none {Img : Type} (convertRGB : Img → Img)
    (resize : Img → ℕ → ℕ → ℕ → Fin 3 → Fin 256) (out : String) :
    ∀ (l : List (ℕ × Tile)) (wd : WorldData) (fs : String → Option WorldData),
      (processTilesAux convertRGB resize (fun _ => (none : Option Img)) out
          l wd fs).1 =
        ⟨wd.metadata, wd.tiles ++
          l.map (fun p => ⟨p.2.id, p.2.bounds, none, false⟩)⟩ := by
  intro l
  induction l with
  | nil => intro wd fs; simp [processTilesAux]
  | cons p rest ih =>
    intro wd fs
    obtain ⟨i, tile⟩ := p
    simp only [processTilesAux]
    rw [ih]
    simp [image_to_dominant_color]

theorem temp_name_ne (out : String) : "temp_" ++ out ≠ out := by
  intro h
  have hlen := congrArg String.length h
  rw [String.length_append] at hlen
  have h5 : ("temp_" : String).length = 5 := rfl
  omega

theorem finalize_files (fs : String → Option WorldData) (wd : WorldData)
    (out : String) :
    (if ((setFile fs out wd) ("temp_" ++ out)).isSome
      then removeFile (setFile fs out wd) ("temp_" ++ out)
      else setFile fs out wd) out = some wd ∧
    (if ((setFile fs out wd) ("temp_" ++ out)).isSome
      then removeFile (setFile fs out wd) ("temp_" ++ out)
      else setFile fs out wd) ("temp_" ++ out) = none := by
  have hout : setFile fs out wd out = some wd := by
    unfold setFile
    rw [if_pos rfl]
  have htempval : removeFile (setFile fs out wd) ("temp_" ++ out) out = some wd := by
    unfold removeFile
    rw [if_neg (fun h : out = "temp_" ++ out => temp_name_ne out h.symm)]
    exact hout
  have hremove : removeFile (setFile fs out wd) ("temp_" ++ out)
      ("temp_" ++ out) = none := by
    unfold removeFile
    rw [if_pos rfl]
  by_cases hc : ((setFile fs out wd) ("temp_" ++ out)).isSome
  · rw [if_pos hc]
    exact ⟨htempval, hremove⟩
  · rw [if_neg hc]
    exact ⟨hout, Option.not_isSome_iff_eq_none.mp hc⟩

/-- Claim C5: run end to end with a fetcher that returns absent for every
tile (and a present, non-empty access token), the processor succeeds: the
final dataset has exactly one TileResult per generated tile, in generation
order, each with `colors = none` and `has_data = false`; the final output
file holds the dataset and the temp checkpoint file is absent at the end. -/
theorem C5_fetch_none_end_to_end {Img : Type} (convertRGB : Img → Img)
    (resize : Img → ℕ → ℕ → ℕ → Fin 3 → Fin 256) (token now out : String)
    (auth : Except String String) (resolution : ℚ)
    (fs0 : String → Option WorldData) (htok : token ≠ "") :
    ∃ wd fs,
      process_world_colors convertRGB resize (fun _ => (none : Option Img))
          (some token) auth now out resolution fs0 = Except.ok (wd, fs) ∧
      wd.tiles = (get_world_tiles resolution).map
        (fun t => ⟨t.id, t.bounds, none, false⟩) ∧
      fs out = some wd ∧
      fs ("temp_" ++ out) = none := by
  have hfal : tokenFalsy (some token) = false := by
    simp [tokenFalsy, htok]
  unfold process_world_colors
  rw [hfal]
  simp only [Bool.false_eq_true, if_false]
  refine ⟨_, _, rfl, ?_, ?_, ?_⟩
  · rw [processTilesAux_fetch_none]
    simp only [List.nil_append]
    have hcomp : (fun p : ℕ × Tile => (⟨p.2.id, p.2.bounds, none, false⟩ : TileResult)) =
        (fun t : Tile => (⟨t.id, t.bounds, none, false⟩ : TileResult)) ∘ Prod.snd := rfl
    rw [hcomp, ← List.map_map, List.enum_map_snd]
  · exact (finalize_files _ _ out).1
  · exact (finalize_files _ _ out).2

/-- Witness for `C5_fetch_none_end_to_end`: concrete token, clock, file name,
resolution 20000 and empty initial file system. -/
theorem C5_witness :
    (("token" : String)) ≠ ("") ∧
    (∃ wd fs,
      process_world_colors (id : Unit → Unit) constResize (fun _ => none)
          (some ("token")) (Except.ok ("token")) ("2026-01-01") ("world_colors.json")
          20000 (fun _ => none) = Except.ok (wd, fs) ∧
      wd.tiles = (get_world_tiles 20000).map
        (fun t => ⟨t.id, t.bounds, none, false⟩) ∧
      fs ("world_colors.json") = some wd ∧
      fs ("temp_" ++ "world_colors.json") = none) :=
  ⟨by decide, C5_fetch_none_end_to_end id constResize ("token") ("2026-01-01")
    ("world_colors.json") (Except.ok ("token")) 20000 (fun _ => none) (by decide)⟩
